import Mathlib

/-!
Verification of the preprocessing defences and data-generator adapters of the
adversarial-robustness-toolbox repository.  The repository ships only the unit
tests of these components; the functions themselves (`label_smoothing` and
`feature_squeezing` from `src/defences/preprocessings.py`, and the generator
classes from `art/data_generators.py`) are modelled here from the
specification.  Numeric arrays are embedded as (nested) lists of rationals.
-/

set_option maxHeartbeats 1000000

namespace ART

/-- The largest entry of a row (`np.max` along axis 1); `0` on the empty row,
which never occurs for the label matrices considered. -/
def rowMax : List ℚ → ℚ
  | [] => 0
  | [a] => a
  | a :: b :: l => max a (rowMax (b :: l))

/-- Index of the first occurrence of the largest entry of a row
(`np.argmax` along axis 1). -/
def idxOfMax (row : List ℚ) : Nat :=
  row.findIdx (fun v => v == rowMax row)

/-- Modelled from the spec: the file `src/defences/preprocessings.py` defining
`label_smoothing` is absent from the sources (only its unit tests are present).
Per spec section 4.1, the entry at the position of each row's original maximum
is set to `max_value` (default 0.9 in the source interface) and the remaining
mass `1 - max_value` is spread uniformly over the other `N - 1` columns,
where `N` is the row length. -/
def label_smoothing (y : List (List ℚ)) (max_value : ℚ) : List (List ℚ) :=
  y.map (fun row =>
    (List.range row.length).map (fun i =>
      if i = idxOfMax row then max_value
      else (1 - max_value) / ((row.length : ℚ) - 1)))

/-- Quantization of a single feature value to bit depth `d`:
`round(v * (2^d - 1)) / (2^d - 1)`. -/
def squeeze1 (d : Nat) (v : ℚ) : ℚ :=
  ((round (v * ((2 : ℚ) ^ d - 1)) : ℤ) : ℚ) / ((2 : ℚ) ^ d - 1)

/-- Modelled from the spec: the file `src/defences/preprocessings.py` defining
`feature_squeezing` is absent from the sources (only its unit tests are
present).  Per spec section 4.2, the input is quantized elementwise to
`round(x * (2^d - 1)) / (2^d - 1)`. -/
def feature_squeezing (x : List (List ℚ)) (bit_depth : Nat) : List (List ℚ) :=
  x.map (fun row => row.map (squeeze1 bit_depth))

/-- A one-hot row of length `N` with the single `1` at column `j`. -/
def oneHotRow (N j : Nat) : List ℚ :=
  (List.range N).map (fun i => if i = j then 1 else 0)

theorem rowMax_mem : ∀ (l : List ℚ), l ≠ [] → rowMax l ∈ l
  | [], h => absurd rfl h
  | [a], _ => by simp [rowMax]
  | a :: b :: l, _ => by
    rcases max_choice a (rowMax (b :: l)) with h | h
    · simp [rowMax, h]
    · have hmem := rowMax_mem (b :: l) (by simp)
      rw [show rowMax (a :: b :: l) = max a (rowMax (b :: l)) from rfl, h]
      exact List.mem_cons_of_mem a hmem

theorem le_rowMax : ∀ (l : List ℚ), ∀ x ∈ l, x ≤ rowMax l
  | [], x, hx => by simp at hx
  | [a], x, hx => by
    simp at hx
    simp [rowMax, hx]
  | a :: b :: l, x, hx => by
    rw [show rowMax (a :: b :: l) = max a (rowMax (b :: l)) from rfl]
    rcases List.mem_cons.mp hx with h | h
    · exact h ▸ le_max_left _ _
    · exact le_trans (le_rowMax (b :: l) x h) (le_max_right _ _)

theorem rowMax_eq_of_mem_of_le (l : List ℚ) (a : ℚ) (ha : a ∈ l)
    (h : ∀ x ∈ l, x ≤ a) : rowMax l = a :=
  le_antisymm (h _ (rowMax_mem l (List.ne_nil_of_mem ha))) (le_rowMax l a ha)

theorem idxOfMax_lt_length (l : List ℚ) (h : l ≠ []) : idxOfMax l < l.length :=
  List.findIdx_lt_length_of_exists
    ⟨rowMax l, rowMax_mem l h, by simp⟩

theorem sum_range_ite_of_ge (j : Nat) (a b : ℚ) :
    ∀ (N : Nat), N ≤ j →
      (((List.range N).map (fun i => if i = j then a else b)).sum) = (N : ℚ) * b
  | 0, _ => by simp
  | N + 1, h => by
    rw [List.range_succ, List.map_append, List.sum_append,
      sum_range_ite_of_ge j a b N (Nat.le_of_succ_le h)]
    have hNj : N ≠ j := Nat.ne_of_lt h
    simp [hNj]
    ring

theorem sum_range_ite_of_lt (j : Nat) (a b : ℚ) :
    ∀ (N : Nat), j < N →
      (((List.range N).map (fun i => if i = j then a else b)).sum) =
        a + ((N : ℚ) - 1) * b
  | 0, h => by omega
  | N + 1, h => by
    rw [List.range_succ, List.map_append, List.sum_append]
    rcases Nat.lt_succ_iff_lt_or_eq.mp h with h' | h'
    · rw [sum_range_ite_of_lt j a b N h']
      have hNj : N ≠ j := Nat.ne_of_gt h'
      simp [hNj]
      ring
    · rw [h', sum_range_ite_of_ge N a b N le_rfl]
      simp
      ring

theorem two_le_cols (N : Nat) (maxv : ℚ) (hN : 1 ≤ N)
    (hlo : 1 / (N : ℚ) < maxv) (hhi : maxv ≤ 1) : 2 ≤ N := by
  rcases Nat.lt_or_ge N 2 with h | h
  · have hN1 : N = 1 := by omega
    subst hN1
    norm_num at hlo
    linarith
  · exact h

theorem minShare_lt (N : Nat) (maxv : ℚ) (hN : 2 ≤ N)
    (hlo : 1 / (N : ℚ) < maxv) :
    (1 - maxv) / ((N : ℚ) - 1) < maxv := by
  have hN0 : (0 : ℚ) < (N : ℚ) := by
    have : (2 : ℚ) ≤ (N : ℚ) := by exact_mod_cast hN
    linarith
  have h1 : (1 : ℚ) < maxv * (N : ℚ) := (div_lt_iff₀ hN0).mp hlo
  have hN1 : (0 : ℚ) < (N : ℚ) - 1 := by
    have : (2 : ℚ) ≤ (N : ℚ) := by exact_mod_cast hN
    linarith
  rw [div_lt_iff₀ hN1]
  nlinarith [h1]

/-- C1: for a label matrix whose rows each sum to 1 and `max_value` in
`(1/N, 1]` (`N` the number of columns), every row of
`label_smoothing y max_value` sums to 1 and has maximum entry `max_value`. -/
theorem label_smoothing_sum_one_max_eq (y : List (List ℚ)) (N : Nat) (maxv : ℚ)
    (hcols : ∀ row ∈ y, row.length = N)
    (hsum : ∀ row ∈ y, row.sum = 1)
    (hlo : 1 / (N : ℚ) < maxv) (hhi : maxv ≤ 1) :
    ∀ row2 ∈ label_smoothing y maxv, row2.sum = 1 ∧ rowMax row2 = maxv := by
  intro row2 hrow2
  rw [label_smoothing, List.mem_map] at hrow2
  obtain ⟨row, hrow, rfl⟩ := hrow2
  have hlen := hcols row hrow
  have hsum1 := hsum row hrow
  have hne : row ≠ [] := by
    intro h
    rw [h] at hsum1
    simp at hsum1
  have hN1 : 1 ≤ N := by
    rw [← hlen]
    exact List.length_pos.mpr hne
  have hN2 : 2 ≤ N := two_le_cols N maxv hN1 hlo hhi
  have hj : idxOfMax row < N := hlen ▸ idxOfMax_lt_length row hne
  have hNq : (0 : ℚ) < (N : ℚ) - 1 := by
    have : (2 : ℚ) ≤ (N : ℚ) := by exact_mod_cast hN2
    linarith
  rw [hlen]
  constructor
  · rw [sum_range_ite_of_lt (idxOfMax row) _ _ N hj]
    field_simp
  · apply rowMax_eq_of_mem_of_le
    · rw [List.mem_map]
      exact ⟨idxOfMax row, List.mem_range.mpr hj, by simp⟩
    · intro x hx
      rw [List.mem_map] at hx
      obtain ⟨i, _, rfl⟩ := hx
      by_cases hij : i = idxOfMax row
      · simp [hij]
      · simp only [hij, if_false]
        exact le_of_lt (minShare_lt N maxv hN2 hlo)

/-- Witness for C1 on the concrete one-hot matrix `[[0, 1, 0]]` with
`N = 3` and `max_value = 9/10`, evaluated at the smoothed row. -/
theorem label_smoothing_sum_one_max_eq_witness :
    ([1 / 20, 9 / 10, 1 / 20] : List ℚ).sum = 1 ∧
      rowMax [1 / 20, 9 / 10, 1 / 20] = 9 / 10 :=
  label_smoothing_sum_one_max_eq [[0, 1, 0]] 3 (9 / 10)
    (by norm_num) (by norm_num) (by norm_num) (by norm_num)
    [1 / 20, 9 / 10, 1 / 20]
    (by
      have hidx : idxOfMax [0, 1, 0] = 1 := by decide
      have hval : label_smoothing [[0, 1, 0]] (9 / 10) =
          [[1 / 20, 9 / 10, 1 / 20]] := by
        norm_num [label_smoothing, hidx, List.range_succ]
      rw [hval]
      norm_num)

/-- C2: for a label matrix whose rows each sum to 1 and `max_value` in
`(1/N, 1]`, entry `i` of row `r` of the smoothed matrix is `max_value` at
the position of row `r`'s original maximum, and `(1 - max_value)/(N - 1)`
everywhere else. -/
theorem label_smoothing_entry (y : List (List ℚ)) (N : Nat) (maxv : ℚ)
    (hcols : ∀ row ∈ y, row.length = N)
    (hsum : ∀ row ∈ y, row.sum = 1)
    (hlo : 1 / (N : ℚ) < maxv) (hhi : maxv ≤ 1)
    (r i : Nat) (hr : r < y.length) (hi : i < N) :
    ((label_smoothing y maxv).getD r []).getD i 0 =
      if i = idxOfMax (y.getD r []) then maxv
      else (1 - maxv) / ((N : ℚ) - 1) := by
  have hrow_mem : y[r] ∈ y := List.getElem_mem hr
  have hlen : y[r].length = N := hcols _ hrow_mem
  have h1 : (label_smoothing y maxv).getD r [] =
      (List.range y[r].length).map (fun i =>
        if i = idxOfMax y[r] then maxv
        else (1 - maxv) / ((y[r].length : ℚ) - 1)) := by
    rw [label_smoothing, List.getD_eq_getElem?_getD, List.getElem?_map,
      List.getElem?_eq_getElem hr]
    rfl
  have h2 : y.getD r [] = y[r] := by
    rw [List.getD_eq_getElem?_getD, List.getElem?_eq_getElem hr]
    rfl
  rw [h1, h2, hlen]
  have hi2 : i < (List.range N).length := by simpa using hi
  rw [List.getD_eq_getElem?_getD, List.getElem?_map,
    List.getElem?_eq_getElem hi2]
  simp

/-- Witness for C2 on the concrete matrix `[[0, 1, 0]]` with `N = 3`,
`max_value = 9/10`, row 0 and column 0. -/
theorem label_smoothing_entry_witness :
    ((label_smoothing [[0, 1, 0]] (9 / 10)).getD 0 []).getD 0 0 =
      if 0 = idxOfMax ([[0, 1, 0]].getD 0 []) then (9 / 10 : ℚ)
      else (1 - 9 / 10) / (((3 : ℕ) : ℚ) - 1) :=
  label_smoothing_entry [[0, 1, 0]] 3 (9 / 10)
    (by norm_num) (by norm_num) (by norm_num) (by norm_num)
    0 0 (by norm_num) (by norm_num)

/-- C8: smoothing a one-hot matrix with the boundary target `1/N` yields the
uniform row-stochastic matrix: every entry equals `1/N`. -/
theorem label_smoothing_boundary_uniform (y : List (List ℚ)) (N : Nat)
    (hrows : ∀ row ∈ y, ∃ j, j < N ∧ row = oneHotRow N j) :
    ∀ row2 ∈ label_smoothing y (1 / (N : ℚ)),
      row2.length = N ∧ ∀ v ∈ row2, v = 1 / (N : ℚ) := by
  intro row2 hrow2
  rw [label_smoothing, List.mem_map] at hrow2
  obtain ⟨row, hrow, rfl⟩ := hrow2
  obtain ⟨j, hj, hrowEq⟩ := hrows row hrow
  have hlen : row.length = N := by rw [hrowEq]; simp [oneHotRow]
  refine ⟨by simp [hlen], ?_⟩
  intro v hv
  rw [List.mem_map] at hv
  obtain ⟨i, hi, rfl⟩ := hv
  rw [List.mem_range, hlen] at hi
  by_cases hij : i = idxOfMax row
  · simp [hij]
  · simp only [hij, if_false]
    rw [hlen]
    rcases Nat.lt_or_ge N 2 with h2 | h2
    · have hN1 : N = 1 := by omega
      subst hN1
      have hj0 : j = 0 := by omega
      have hi0 : i = 0 := by omega
      have hidx : idxOfMax row = 0 := by
        rw [hrowEq, hj0]
        decide
      exact (hij (by rw [hi0, hidx])).elim
    · have hq2 : (2 : ℚ) ≤ (N : ℚ) := by exact_mod_cast h2
      have hN0 : ((N : ℚ)) ≠ 0 := by linarith
      have hN1 : ((N : ℚ) - 1) ≠ 0 := by linarith
      field_simp
      ring

/-- Witness for C8 on the one-hot matrix `[[0, 1], [1, 0]]` with `N = 2`,
evaluated at the first smoothed row. -/
theorem label_smoothing_boundary_uniform_witness :
    ([1 / 2, 1 / 2] : List ℚ).length = 2 ∧
      ∀ v ∈ ([1 / 2, 1 / 2] : List ℚ), v = 1 / ((2 : ℕ) : ℚ) :=
  label_smoothing_boundary_uniform [[0, 1], [1, 0]] 2
    (by
      intro row hrow
      rcases List.mem_cons.mp hrow with h | h
      · exact ⟨1, by norm_num, by rw [h]; decide⟩
      · rcases List.mem_cons.mp h with h2 | h2
        · exact ⟨0, by norm_num, by rw [h2]; decide⟩
        · simp at h2)
    [1 / 2, 1 / 2]
    (by
      have hidx1 : idxOfMax [0, 1] = 1 := by decide
      have hidx2 : idxOfMax [1, 0] = 0 := by decide
      have hval : label_smoothing [[0, 1], [1, 0]] (1 / ((2 : ℕ) : ℚ)) =
          [[1 / 2, 1 / 2], [1 / 2, 1 / 2]] := by
        norm_num [label_smoothing, hidx1, hidx2, List.range_succ]
      rw [hval]
      norm_num)

/-- C9: both defences preserve the shape of their input: the number of rows
and the length of each row are unchanged. -/
theorem defences_preserve_shape (y x : List (List ℚ)) (maxv : ℚ) (d : Nat) :
    (label_smoothing y maxv).length = y.length ∧
    (label_smoothing y maxv).map List.length = y.map List.length ∧
    (feature_squeezing x d).length = x.length ∧
    (feature_squeezing x d).map List.length = x.map List.length := by
  refine ⟨by simp [label_smoothing], ?_, by simp [feature_squeezing], ?_⟩
  · simp [label_smoothing, List.map_map, Function.comp]
  · simp [feature_squeezing, List.map_map, Function.comp]

theorem round_le_round (a b : ℚ) (h : a ≤ b) : round a ≤ round b := by
  rw [round_eq, round_eq]
  exact Int.floor_mono (by linarith)

theorem two_pow_sub_one_cast (d : Nat) :
    (((2 ^ d - 1 : ℕ)) : ℚ) = (2 : ℚ) ^ d - 1 := by
  rw [Nat.cast_sub Nat.one_le_two_pow]
  push_cast
  ring

theorem two_pow_sub_one_pos (d : Nat) (hd : 1 ≤ d) :
    (0 : ℚ) < (2 : ℚ) ^ d - 1 := by
  have h2 : (2 : ℚ) ≤ (2 : ℚ) ^ d := by
    calc (2 : ℚ) = (2 : ℚ) ^ 1 := (pow_one 2).symm
    _ ≤ (2 : ℚ) ^ d := pow_le_pow_right₀ (by norm_num) hd
  linarith

theorem squeeze1_one (d : Nat) (hd : 1 ≤ d) : squeeze1 d 1 = 1 := by
  have hne : (((2 ^ d - 1 : ℕ)) : ℚ) ≠ 0 := by
    rw [two_pow_sub_one_cast]
    exact ne_of_gt (two_pow_sub_one_pos d hd)
  rw [squeeze1, one_mul, ← two_pow_sub_one_cast, round_natCast,
    Int.cast_natCast, div_self hne]

theorem map_eq_self {α : Type} (l : List α) (f : α → α)
    (h : ∀ v ∈ l, f v = v) : l.map f = l := by
  induction l with
  | nil => rfl
  | cons a t ih =>
    rw [List.map_cons, h a (List.mem_cons_self a t),
      ih (fun v hv => h v (List.mem_cons_of_mem a hv))]

/-- C5: an all-ones feature array is a fixed point of `feature_squeezing` at
every bit depth `d ≥ 1`. -/
theorem feature_squeezing_all_ones (x : List (List ℚ)) (d : Nat)
    (hone : ∀ row ∈ x, ∀ v ∈ row, v = 1) (hd : 1 ≤ d) :
    feature_squeezing x d = x := by
  rw [feature_squeezing]
  apply map_eq_self
  intro row hrow
  apply map_eq_self
  intro v hv
  rw [hone row hrow v hv]
  exact squeeze1_one d hd

/-- Witness for C5 on the all-ones array `[[1, 1], [1]]` at depth 3. -/
theorem feature_squeezing_all_ones_witness :
    feature_squeezing [[1, 1], [1]] 3 = [[1, 1], [1]] :=
  feature_squeezing_all_ones [[1, 1], [1]] 3 (by decide) (by decide)

/-- C4: at bit depth 1 on inputs in `[0, 1]`, `feature_squeezing` thresholds
at `1/2`: an entry maps to `1` exactly when it is at least `1/2` and to `0`
exactly when it is below `1/2`. -/
theorem feature_squeezing_depth_one (x : List (List ℚ))
    (hx : ∀ row ∈ x, ∀ v ∈ row, 0 ≤ v ∧ v ≤ 1) :
    feature_squeezing x 1 =
      x.map (fun row => row.map (fun v => if 1 / 2 ≤ v then (1 : ℚ) else 0)) := by
  rw [feature_squeezing]
  apply List.map_congr_left
  intro row hrow
  apply List.map_congr_left
  intro v hv
  obtain ⟨h0, h1⟩ := hx row hrow v hv
  rw [squeeze1]
  norm_num
  by_cases h : 1 / 2 ≤ v
  · rw [if_pos h]
    have hr : round v = 1 := by
      rw [round_eq, Int.floor_eq_iff]
      constructor
      · push_cast
        linarith
      · push_cast
        linarith
    rw [hr]
    norm_num
  · rw [if_neg h]
    push_neg at h
    have hr : round v = 0 := by
      rw [round_eq, Int.floor_eq_iff]
      constructor
      · push_cast
        linarith
      · push_cast
        linarith
    rw [hr]
    norm_num

/-- Witness for C4 on the array `[[0, 1/2, 1]]`. -/
theorem feature_squeezing_depth_one_witness :
    feature_squeezing [[0, 1 / 2, 1]] 1 =
      ([[0, 1 / 2, 1]] : List (List ℚ)).map (fun row =>
        row.map (fun v => if 1 / 2 ≤ v then (1 : ℚ) else 0)) :=
  feature_squeezing_depth_one [[0, 1 / 2, 1]] (by norm_num)

/-- C3: at any bit depth `d ≥ 1` on inputs in `[0, 1]`, `feature_squeezing`
computes `round(v * (2^d - 1)) / (2^d - 1)` elementwise, and every output
entry is one of the `2^d` discrete levels `k / (2^d - 1)` with
`0 ≤ k ≤ 2^d - 1`; in particular no output falls strictly between two
consecutive levels (the depth-2 test's forbidden gaps are empty). -/
theorem feature_squeezing_levels (x : List (List ℚ)) (d : Nat)
    (hd : 1 ≤ d)
    (hx : ∀ row ∈ x, ∀ v ∈ row, 0 ≤ v ∧ v ≤ 1) :
    feature_squeezing x d =
      x.map (fun row => row.map (fun v =>
        ((round (v * ((2 : ℚ) ^ d - 1)) : ℤ) : ℚ) / ((2 : ℚ) ^ d - 1))) ∧
    ∀ row ∈ feature_squeezing x d, ∀ w ∈ row,
      ∃ k : Nat, k ≤ 2 ^ d - 1 ∧ w = ((k : ℕ) : ℚ) / ((2 : ℚ) ^ d - 1) := by
  constructor
  · rfl
  · intro row hrow w hw
    rw [feature_squeezing, List.mem_map] at hrow
    obtain ⟨row0, hrow0, rfl⟩ := hrow
    rw [List.mem_map] at hw
    obtain ⟨v, hv, rfl⟩ := hw
    obtain ⟨h0, h1⟩ := hx row0 hrow0 v hv
    have hm0 : (0 : ℚ) < (2 : ℚ) ^ d - 1 := two_pow_sub_one_pos d hd
    have hr0 : 0 ≤ round (v * ((2 : ℚ) ^ d - 1)) := by
      rw [round_eq]
      apply Int.floor_nonneg.mpr
      nlinarith
    have hvm : v * ((2 : ℚ) ^ d - 1) ≤ (2 : ℚ) ^ d - 1 :=
      mul_le_of_le_one_left (le_of_lt hm0) h1
    have hrm : round (v * ((2 : ℚ) ^ d - 1)) ≤ ((2 ^ d - 1 : ℕ) : ℤ) := by
      have h2 := round_le_round (v * ((2 : ℚ) ^ d - 1)) (((2 ^ d - 1 : ℕ)) : ℚ)
        (by rw [two_pow_sub_one_cast]; exact hvm)
      rwa [round_natCast] at h2
    refine ⟨(round (v * ((2 : ℚ) ^ d - 1))).toNat, ?_, ?_⟩
    · have : ((round (v * ((2 : ℚ) ^ d - 1))).toNat : ℤ) ≤ ((2 ^ d - 1 : ℕ) : ℤ) := by
        rw [Int.toNat_of_nonneg hr0]
        exact hrm
      exact_mod_cast this
    · rw [squeeze1]
      have : (((round (v * ((2 : ℚ) ^ d - 1))).toNat : ℤ)) =
          round (v * ((2 : ℚ) ^ d - 1)) := Int.toNat_of_nonneg hr0
      rw [← this]
      push_cast
      rfl

/-- Witness for C3 on the array `[[1/2]]` at depth 2. -/
theorem feature_squeezing_levels_witness :
    feature_squeezing [[1 / 2]] 2 =
      ([[1 / 2]] : List (List ℚ)).map (fun row => row.map (fun v =>
        ((round (v * ((2 : ℚ) ^ 2 - 1)) : ℤ) : ℚ) / ((2 : ℚ) ^ 2 - 1))) ∧
    ∀ row ∈ feature_squeezing [[1 / 2]] 2, ∀ w ∈ row,
      ∃ k : Nat, k ≤ 2 ^ 2 - 1 ∧ w = ((k : ℕ) : ℚ) / ((2 : ℚ) ^ 2 - 1) :=
  feature_squeezing_levels [[1 / 2]] 2 (by norm_num) (by norm_num)

/-- A NumPy ndarray, modelled as a shape vector together with flat data. -/
structure NDArray where
  shape : List Nat
  data : List ℚ
deriving DecidableEq

/-- A framework-native tensor or array, tagged with its framework of origin.
Keras batches already arrive as NumPy arrays. -/
inductive NativeTensor where
  | npArray : NDArray → NativeTensor
  | torchTensor : NDArray → NativeTensor
  | mxNDArray : NDArray → NativeTensor
  | tfTensor : NDArray → NativeTensor
deriving DecidableEq

/-- Conversion of a native tensor to a NumPy array: the identity for Keras
(already NumPy), `.data.numpy()` for PyTorch, `.asnumpy()` for MXNet, and the
session run result for TensorFlow. -/
def NativeTensor.toNumpy : NativeTensor → NDArray
  | .npArray a => a
  | .torchTensor a => a
  | .mxNDArray a => a
  | .tfTensor a => a

/-- The supported deep-learning frameworks. -/
inductive Framework where
  | keras
  | pytorch
  | mxnet
  | tensorflow
deriving DecidableEq

/-- Modelled from the spec: the adapter classes of `art/data_generators.py`
are absent from the sources (only their tests are present).  An adapter holds
a reference to the wrapped framework iterable (embedded as the list of batch
pairs it yields, with an iteration cursor), an optional declared dataset size
and a batch size — the three fields named in spec section 3. -/
structure DataGenerator where
  framework : Framework
  iterator : List (NativeTensor × NativeTensor)
  cursor : Nat
  size : Option Nat
  batch_size : Nat
deriving DecidableEq

/-- The generator with its iteration cursor advanced by one. -/
def advance (g : DataGenerator) : DataGenerator :=
  DataGenerator.mk g.framework g.iterator (g.cursor + 1) g.size g.batch_size

/-- Modelled from the spec: `get_batch` of `art/data_generators.py` is absent
from the sources.  Per spec sections 4.3 and 6, it advances the wrapped
iterable by one step and returns that batch as a pair of NumPy arrays,
converting each component from the framework-native tensor type; on an
exhausted iterator the underlying library raises, embedded as `none`. -/
def get_batch (g : DataGenerator) :
    Option ((NDArray × NDArray) × DataGenerator) :=
  (g.iterator[g.cursor]?).map
    (fun b => ((b.1.toNumpy, b.2.toNumpy), advance g))

/-- C6: on a well-formed (non-exhausted) wrapped iterator, `get_batch`
returns a pair of NumPy arrays, each obtained by converting the corresponding
component of the framework-native batch. -/
theorem get_batch_returns_numpy_pair (g : DataGenerator)
    (h : g.cursor < g.iterator.length) :
    ∃ gNext, get_batch g =
      some (((g.iterator.get ⟨g.cursor, h⟩).1.toNumpy,
             (g.iterator.get ⟨g.cursor, h⟩).2.toNumpy), gNext) := by
  refine ⟨advance g, ?_⟩
  rw [get_batch, List.getElem?_eq_getElem h]
  rfl

/-- A PyTorch-style demo generator: one batch of shapes `(5, 1, 5, 5)` and
`(5,)`, as in the PyTorch adapter test. -/
def demoTorchGen : DataGenerator :=
  DataGenerator.mk Framework.pytorch
    [(NativeTensor.torchTensor (NDArray.mk [5, 1, 5, 5] []),
      NativeTensor.torchTensor (NDArray.mk [5] []))]
    0 (some 10) 5

/-- Witness for C6 on the concrete PyTorch-style generator. -/
theorem get_batch_returns_numpy_pair_witness :
    ∃ gNext, get_batch demoTorchGen =
      some (((demoTorchGen.iterator.get ⟨demoTorchGen.cursor, by decide⟩).1.toNumpy,
             (demoTorchGen.iterator.get ⟨demoTorchGen.cursor, by decide⟩).2.toNumpy),
            gNext) :=
  get_batch_returns_numpy_pair demoTorchGen (by decide)

/-- Modelled from the spec and the Keras test setup: a `keras.utils.Sequence`
is an indexed collection; iterating it yields `seq[0], seq[1], ...`, each the
pair its item accessor returns — for the test's DummySequence one sample pair,
already NumPy and with no leading batch dimension. -/
structure KerasSequence where
  samples : List (NDArray × NDArray)
deriving DecidableEq

/-- The iteration stream of a Keras sequence: its items in index order. -/
def KerasSequence.toIterator (s : KerasSequence) :
    List (NativeTensor × NativeTensor) :=
  s.samples.map (fun p => (NativeTensor.npArray p.1, NativeTensor.npArray p.2))

/-- Modelled from the spec: `KerasDataGenerator` wraps the given iterable
unchanged, merely recording `size` and `batch_size`; `get_batch` then draws
from the wrapped object's own iteration protocol. -/
def KerasDataGenerator.ofSequence (s : KerasSequence) (size : Option Nat)
    (batch_size : Nat) : DataGenerator :=
  DataGenerator.mk Framework.keras s.toIterator 0 size batch_size

/-- C10: wrapping a Keras sequence of single samples, `get_batch` returns one
indexed sample pair, whose shapes are the per-sample shapes — without a
leading batch dimension, whatever `batch_size` was set to. -/
theorem keras_sequence_batch_is_single_sample (s : KerasSequence)
    (sz : Option Nat) (bs : Nat) (sx sy : List Nat)
    (hne : s.samples ≠ [])
    (hsh : ∀ p ∈ s.samples, p.1.shape = sx ∧ p.2.shape = sy) :
    ∃ xb yb gNext,
      get_batch (KerasDataGenerator.ofSequence s sz bs) =
        some ((xb, yb), gNext) ∧
      xb.shape = sx ∧ yb.shape = sy ∧
      xb.shape ≠ bs :: sx ∧ yb.shape ≠ bs :: sy := by
  obtain ⟨samples⟩ := s
  cases samples with
  | nil => exact absurd rfl hne
  | cons p rest =>
    obtain ⟨hx, hy⟩ := hsh p (List.mem_cons_self p rest)
    refine ⟨p.1, p.2, advance (KerasDataGenerator.ofSequence ⟨p :: rest⟩ sz bs),
      ?_, hx, hy, ?_, ?_⟩
    · simp [get_batch, KerasDataGenerator.ofSequence, KerasSequence.toIterator,
        NativeTensor.toNumpy]
    · intro hEq
      rw [hx] at hEq
      have hlen := congrArg List.length hEq
      simp at hlen
    · intro hEq
      rw [hy] at hEq
      have hlen := congrArg List.length hEq
      simp at hlen

/-- A demo Keras sequence: one sample of shapes `(28, 28, 1)` and `(10,)`,
as in the Keras sequence test. -/
def demoSeq : KerasSequence :=
  KerasSequence.mk [(NDArray.mk [28, 28, 1] [], NDArray.mk [10] [])]

/-- Witness for C10 on the concrete demo sequence with `batch_size = 1`. -/
theorem keras_sequence_batch_is_single_sample_witness :
    ∃ xb yb gNext,
      get_batch (KerasDataGenerator.ofSequence demoSeq (some 5) 1) =
        some ((xb, yb), gNext) ∧
      xb.shape = [28, 28, 1] ∧ yb.shape = [10] ∧
      xb.shape ≠ 1 :: [28, 28, 1] ∧ yb.shape ≠ 1 :: [10] :=
  keras_sequence_batch_is_single_sample demoSeq (some 5) 1 [28, 28, 1] [10]
    (by decide) (by decide)

end ART
